import Mathlib

/-
Verification of the periodicity resolver and numerical-integration engine of
the `IntegralVisualizer` (signal-decomposition teaching tool).

Modelling conventions:
* JavaScript numbers are modelled as exact rationals `ℚ`.
* `Math.floor` is `⌊·⌋ : ℚ → ℤ` and `Math.round` is `⌊· + 1/2⌋`
  (JavaScript rounds halves toward positive infinity).
* Periods are tracked by their ratio to π throughout the resolver: the source
  method `calculateLCMOfPeriods` divides every period by `Math.PI` on entry
  and multiplies the computed LCM by `Math.PI` on exit, so the whole pipeline
  operates on π-ratios; theorems about actual periods restore the factor π
  explicitly in their statements.
* Instance state read by a method (`this.angularFrequency`,
  `this.calculateOrthogonalPeriod()`) is passed as an explicit argument.
* The chart library's `null` "no data" markers are modelled by `Option.none`.
-/

namespace SigSys

/-- JavaScript `Math.round`: rounds to the nearest integer, halves toward
positive infinity. -/
def mathRound (x : ℚ) : ℤ := ⌊x + 1/2⌋

/-- Method `gcd(a, b)` of `IntegralVisualizer`: both arguments are first
normalized by `Math.abs(Math.round(·))` to natural numbers, then the recursion
`b === 0 ? a : gcd(b, a % b)` runs; on naturals that recursion computes
exactly `Nat.gcd b a` (the re-rounding inside recursive calls is the identity
on natural numbers). -/
def gcdJS (a b : ℚ) : ℕ := Nat.gcd (mathRound b).natAbs (mathRound a).natAbs

/-- Method `lcm(a, b) = Math.abs(a * b) / gcd(a, b)` of `IntegralVisualizer`. -/
def lcmJS (a b : ℚ) : ℚ := |a * b| / (gcdJS a b : ℚ)

/-- Result type of `toRational` / `continuedFractionApprox`: the literal
object `\x7b numerator, denominator \x7d`. -/
structure JsRat where
  numerator : ℤ
  denominator : ℤ
deriving DecidableEq

/-- The `while` loop of `continuedFractionApprox`, with the loop state
`(x, p0, p1, q0, q1)` made explicit and a fuel parameter standing in for the
unbounded `while`; theorem `continuedFractionApprox_terminates` shows the
result is already stable at fuel 30, so the fuel is never exhausted in
`continuedFractionApprox` below.  The loop body inverts the remainder,
takes the integer part `a = Math.floor(1/x)`, forms the next convergent
`p2/q2 = (a*p1 + p0)/(a*q1 + q0)`, breaks when `q2 > maxDenominator`, and
otherwise shifts the state. -/
def cfLoop (maxDenominator : ℤ) : ℕ → ℚ → ℤ → ℤ → ℤ → ℤ → ℤ × ℤ
  | 0, _, _, p1, _, q1 => (p1, q1)
  | fuel+1, x, p0, p1, q0, q1 =>
    if 1/10^10 < x ∧ q1 < maxDenominator then
      if maxDenominator < ⌊1/x⌋ * q1 + q0 then (p1, q1)
      else cfLoop maxDenominator fuel (1/x - ⌊1/x⌋) p1 (⌊1/x⌋ * p1 + p0) q1 (⌊1/x⌋ * q1 + q0)
    else (p1, q1)

/-- Method `continuedFractionApprox(x, maxDenominator = 100)`: initializes
`a = Math.floor(x)`, `p0 = 1`, `p1 = a`, `q0 = 0`, `q1 = 1`, `x = x - a`,
runs the convergent loop, and returns the last convergent `p1/q1`. -/
def continuedFractionApprox (x : ℚ) (maxDenominator : ℤ) : JsRat :=
  ⟨(cfLoop maxDenominator 30 (x - ⌊x⌋) 1 ⌊x⌋ 0 1).1,
   (cfLoop maxDenominator 30 (x - ⌊x⌋) 1 ⌊x⌋ 0 1).2⟩

/-- Method `toRational(decimal, precision = 1e-10)` (the call sites use the
default precision, hard-wired here as `1/10^10`): exact shortcuts for values
near 2, 1 and 2/3; for positive input, `reciprocal = 2/decimal` is tested for
being (near) an integer and then (near) a half-integer; otherwise the
continued-fraction fallback runs with its default bound 100. -/
def toRational (decimal : ℚ) : JsRat :=
  let precision : ℚ := 1/10^10
  if |decimal - 2| < precision then ⟨2, 1⟩
  else if |decimal - 1| < precision then ⟨1, 1⟩
  else if |decimal - 2/3| < precision then ⟨2, 3⟩
  else if 0 < decimal then
    let reciprocal := 2 / decimal
    if |reciprocal - mathRound reciprocal| < precision then
      ⟨2, mathRound reciprocal⟩
    else
      let doubled := reciprocal * 2
      if |doubled - mathRound doubled| < precision then
        ⟨4, mathRound doubled⟩
      else continuedFractionApprox decimal 100
  else continuedFractionApprox decimal 100

/-- Method `lcmOfRationalNumbers(numbers)`: rationalizes every entry, then
folds `lcmNumerator = lcm(lcmNumerator, rᵢ.numerator)` and
`gcdDenominator = gcd(gcdDenominator, rᵢ.denominator)` starting from the
first entry, and returns `lcmNumerator / gcdDenominator`.  The source indexes
`rationals[0]` unconditionally; callers always pass non-empty lists, and the
empty case is completed with 0. -/
def lcmOfRationalNumbers (numbers : List ℚ) : ℚ :=
  match numbers.map toRational with
  | [] => 0
  | r0 :: rest =>
    let res := rest.foldl
      (fun acc r =>
        (lcmJS acc.1 (r.numerator : ℚ), ((gcdJS acc.2 (r.denominator : ℚ) : ℤ) : ℚ)))
      ((r0.numerator : ℚ), (r0.denominator : ℚ))
    res.1 / res.2

/-- Method `calculateLCMOfPeriods(periods)`, expressed on π-ratios: the source
maps each period to `period / Math.PI`, applies `lcmOfRationalNumbers`, and
multiplies the result by `Math.PI` again; here the argument and the result
are the π-ratios themselves. -/
def calculateLCMOfPeriods (piMultiples : List ℚ) : ℚ :=
  lcmOfRationalNumbers piMultiples

/-- Method `calculateOrthogonalPeriodForOmega(omega)`, on π-ratios: the
composite component periods 2π, π, 2π/3 have π-ratios `[2, 1, 2/3]`, the
integrating sinusoid's period 2π/ω has π-ratio `2/ω`, and the result is the
LCM of all four (its π-ratio). -/
def calculateOrthogonalPeriodForOmega (omega : ℚ) : ℚ :=
  let compositePeriods : List ℚ := [2, 1, 2/3]
  let integratingPeriod : ℚ := 2 / omega
  calculateLCMOfPeriods (compositePeriods ++ [integratingPeriod])

/-- The angular-frequency values scanned by `calculateMaxOrthogonalPeriod`:
`for (omega = 0.5; omega <= 3.0; omega += 0.1)`, i.e. 0.5, 0.6, …, 3.0
(26 values) in exact arithmetic.  These are also the legal slider values. -/
def sliderOmegas : List ℚ := (List.range 26).map (fun k => 1/2 + (k : ℚ)/10)

/-- Method `calculateMaxOrthogonalPeriod()`, on π-ratios: `maxPeriod` starts
at 0 and is updated with `Math.max` over the whole slider range. -/
def calculateMaxOrthogonalPeriod : ℚ :=
  (sliderOmegas.map calculateOrthogonalPeriodForOmega).foldl max 0

/-- The accumulation loop of `numericalIntegration`: for
`i = 0 … length - 2` it adds `(productData[i] + productData[i+1]) * dt / 2`,
i.e. one trapezoid per consecutive pair. -/
def trapSum (dt : ℚ) : List ℚ → ℚ
  | a :: b :: rest => (a + b) * dt / 2 + trapSum dt (b :: rest)
  | _ => 0

/-- Method `numericalIntegration(productData)`; the integration period, read
in the source from `this.calculateOrthogonalPeriod()`, is passed explicitly.
Empty input returns 0; otherwise `dt = integrationPeriod / length`, the
trapezoid sum runs over consecutive pairs, and the result is normalized by
`2 / integrationPeriod`. -/
def numericalIntegration (productData : List ℚ) (integrationPeriod : ℚ) : ℚ :=
  if productData.length = 0 then 0
  else
    let dt := integrationPeriod / (productData.length : ℚ)
    2 / integrationPeriod * trapSum dt productData

/-- Modelled from the spec's words (refinement reference for the integration
claim): the open composite trapezoidal rule with step
`dt = period / len(samples)`, summing `(samples[i] + samples[i+1]) * dt / 2`
over `i = 0 … len - 2` with no wrap-around segment, scaled by `2/period`,
and 0 for an empty or single-element input. -/
def integrateSpec (samples : List ℚ) (period : ℚ) : ℚ :=
  if samples.length ≤ 1 then 0
  else
    2 / period *
      ∑ i in Finset.range (samples.length - 1),
        (samples.getD i 0 + samples.getD (i+1) 0) * (period / (samples.length : ℚ)) / 2

/-- Method `splitDataByIntegrationPeriod(data, timeArray)`: the integration
period, read in the source from `this.calculateOrthogonalPeriod()`, is passed
explicitly; the window is `[-integrationPeriod/2, integrationPeriod/2]`.  The
loop walks `timeArray`, pushing the actual `data[i]` into the inside series
and `null` into the outside series when
`time >= integrationStart && time <= integrationEnd`, and symmetrically
otherwise.  Labels (`time.toFixed(2)` display strings) are tracked as the raw
times.  `data[i]` is modelled with `List.getD data i 0`; callers pass arrays
of equal length, under which the default is never consulted. -/
def splitDataByIntegrationPeriod (integrationPeriod : ℚ) (data timeArray : List ℚ) :
    List (Option ℚ) × List (Option ℚ) :=
  let integrationStart := -integrationPeriod / 2
  let integrationEnd := integrationPeriod / 2
  ((List.range timeArray.length).map (fun i =>
      if integrationStart ≤ timeArray.getD i 0 ∧ timeArray.getD i 0 ≤ integrationEnd
      then some (data.getD i 0) else none),
   (List.range timeArray.length).map (fun i =>
      if integrationStart ≤ timeArray.getD i 0 ∧ timeArray.getD i 0 ≤ integrationEnd
      then none else some (data.getD i 0)))

/-- Method `formatIntegralValue(value)`: magnitudes below `0.001` render as
`"0"`; values whose magnitude is within `0.01` of `0.707` render as the
literal `"0.707"` (with a leading minus sign for negative input); everything
else is `Math.round(value).toString()`. -/
def formatIntegralValue (value : ℚ) : String :=
  if |value| < 1/1000 then "0"
  else if |(|value| - 707/1000)| < 1/100 then
    if value < 0 then "-0.707" else "0.707"
  else
    toString (mathRound value)


/- ------------------------------------------------------------------ -/
/- Helper lemmas                                                       -/
/- ------------------------------------------------------------------ -/

/-- The trapezoid accumulation loop equals the indexed sum of
`(s[i] + s[i+1]) * dt / 2` over `i = 0 … len s - 2`. -/
lemma trapSum_eq_sum (dt : ℚ) (s : List ℚ) :
    trapSum dt s =
      ∑ i in Finset.range (s.length - 1), (s.getD i 0 + s.getD (i+1) 0) * dt / 2 := by
  induction s with
  | nil => simp [trapSum]
  | cons a t ih =>
    cases t with
    | nil => simp [trapSum]
    | cons b r =>
      rw [show trapSum dt (a :: b :: r) = (a + b) * dt / 2 + trapSum dt (b :: r) from rfl, ih]
      have hlen : (a :: b :: r).length - 1 = ((b :: r).length - 1) + 1 := by simp
      rw [hlen, Finset.sum_range_succ']
      simp [List.getD_cons_succ, List.getD_cons_zero]
      ring

/-- The trapezoid loop on a constant list of `n + 1` samples sums `n` equal
trapezoids of area `v * dt` each. -/
lemma trapSum_replicate (dt v : ℚ) (n : ℕ) :
    trapSum dt (List.replicate (n+1) v) = (n : ℚ) * (v * dt) := by
  induction n with
  | zero => simp [trapSum]
  | succ m ih =>
    rw [List.replicate_succ, List.replicate_succ]
    rw [show trapSum dt (v :: v :: List.replicate m v) =
      (v + v) * dt / 2 + trapSum dt (v :: List.replicate m v) from rfl]
    rw [← List.replicate_succ, ih]
    push_cast
    ring

/-- A left fold of `max` never drops below its initial accumulator. -/
lemma init_le_foldl_max (l : List ℚ) (a : ℚ) : a ≤ l.foldl max a := by
  induction l generalizing a with
  | nil => simp
  | cons b t ih => exact le_trans (le_max_left a b) (ih (max a b))

/-- Every member of a list is bounded by the left fold of `max` over it. -/
lemma le_foldl_max (l : List ℚ) (a x : ℚ) (hx : x ∈ l) : x ≤ l.foldl max a := by
  induction l generalizing a with
  | nil => cases hx
  | cons b t ih =>
    rcases List.mem_cons.mp hx with rfl | hmem
    · exact le_trans (le_max_right a x) (init_le_foldl_max t _)
    · exact ih (max a b) hmem

/-- Reading index `i < n` out of `(List.range n).map f` yields `f i`. -/
lemma getD_map_range {α : Type} (n i : ℕ) (h : i < n) (f : ℕ → α) (d : α) :
    ((List.range n).map f).getD i d = f i := by
  rw [List.getD_eq_getElem?_getD, List.getElem?_map, List.getElem?_range h]
  rfl

/-- Two integers whose 2×2 convergent determinant is ±1 are coprime. -/
lemma gcd_eq_one_of_det (p0 p1 q0 q1 : ℤ)
    (hdet : p1 * q0 - p0 * q1 = 1 ∨ p1 * q0 - p0 * q1 = -1) :
    Int.gcd p1 q1 = 1 := by
  rcases hdet with h | h
  · exact Int.gcd_eq_one_iff_coprime.mpr ⟨q0, -p0, by linear_combination h⟩
  · exact Int.gcd_eq_one_iff_coprime.mpr ⟨-q0, p0, by linear_combination -h⟩

/-- Loop invariant of `cfLoop` at bound 100: starting from a state with a
remainder in `[0, 1)`, denominators `0 ≤ q0 ≤ q1`, `1 ≤ q1 ≤ 100` and
convergent determinant `p1*q0 - p0*q1 = ±1`, the returned pair has a
denominator in `[1, 100]` and coprime entries. -/
lemma cfLoop_det_bounds :
    ∀ (fuel : ℕ) (x : ℚ) (p0 p1 q0 q1 : ℤ),
      0 ≤ x → x < 1 → 0 ≤ q0 → q0 ≤ q1 → 1 ≤ q1 → q1 ≤ 100 →
      p1 * q0 - p0 * q1 = 1 ∨ p1 * q0 - p0 * q1 = -1 →
      1 ≤ (cfLoop 100 fuel x p0 p1 q0 q1).2 ∧
      (cfLoop 100 fuel x p0 p1 q0 q1).2 ≤ 100 ∧
      Int.gcd (cfLoop 100 fuel x p0 p1 q0 q1).1 (cfLoop 100 fuel x p0 p1 q0 q1).2 = 1 := by
  intro fuel
  induction fuel with
  | zero =>
    intro x p0 p1 q0 q1 _ _ _ _ hq1 hq100 hdet
    exact ⟨hq1, hq100, gcd_eq_one_of_det p0 p1 q0 q1 hdet⟩
  | succ n ih =>
    intro x p0 p1 q0 q1 hx0 hx1 hq0 hq01 hq1 hq100 hdet
    by_cases hg : 1/10^10 < x ∧ q1 < 100
    · by_cases hb : (100:ℤ) < ⌊1/x⌋ * q1 + q0
      · simp only [cfLoop]
        rw [if_pos hg, if_pos hb]
        exact ⟨hq1, hq100, gcd_eq_one_of_det p0 p1 q0 q1 hdet⟩
      · simp only [cfLoop]
        rw [if_pos hg, if_neg hb]
        have hxpos : 0 < x := lt_trans (by norm_num) hg.1
        have hinv : (1:ℚ) < 1/x := by
          rw [lt_div_iff₀ hxpos]; linarith
        have ha : (1:ℤ) ≤ ⌊1/x⌋ := by
          rw [Int.le_floor]; exact_mod_cast le_of_lt hinv
        have haq : q1 ≤ ⌊1/x⌋ * q1 := le_mul_of_one_le_left (by linarith) ha
        apply ih
        · exact sub_nonneg.mpr (Int.floor_le _)
        · linarith [Int.lt_floor_add_one (1/x)]
        · linarith
        · linarith
        · linarith
        · linarith
        · rcases hdet with h | h
          · right; linear_combination -h
          · left; linear_combination -h
    · simp only [cfLoop]
      rw [if_neg hg]
      exact ⟨hq1, hq100, gcd_eq_one_of_det p0 p1 q0 q1 hdet⟩

/-- Fuel-stability of `cfLoop` at bound 100: under the loop invariant, once
`200 * 2^fuel ≤ (q0 + q1) * 3^fuel` holds (so the Fibonacci-style growth of
the denominators must push `q1` past 100 within `fuel` steps), extra fuel
does not change the result.  In particular the `while` loop always stops
within 30 iterations. -/
lemma cfLoop_stable :
    ∀ (fuel extra : ℕ) (x : ℚ) (p0 p1 q0 q1 : ℤ),
      0 ≤ x → x < 1 → 0 ≤ q0 → q0 ≤ q1 → 1 ≤ q1 →
      200 * 2^fuel ≤ (q0 + q1) * 3^fuel →
      cfLoop 100 (fuel + extra) x p0 p1 q0 q1 = cfLoop 100 fuel x p0 p1 q0 q1 := by
  intro fuel
  induction fuel with
  | zero =>
    intro extra x p0 p1 q0 q1 _ _ _ hq01 _ hbig
    simp only [pow_zero, mul_one] at hbig
    have hq : ¬ (q1 < 100) := by omega
    cases extra with
    | zero => rfl
    | succ e =>
      rw [Nat.zero_add]
      simp only [cfLoop]
      rw [if_neg (fun hc => hq hc.2)]
  | succ n ih =>
    intro extra x p0 p1 q0 q1 hx0 hx1 hq0 hq01 hq1 hbig
    rw [show n + 1 + extra = (n + extra) + 1 by omega]
    by_cases hg : 1/10^10 < x ∧ q1 < 100
    · by_cases hb : (100:ℤ) < ⌊1/x⌋ * q1 + q0
      · simp only [cfLoop]
        rw [if_pos hg, if_pos hb, if_pos hg, if_pos hb]
      · simp only [cfLoop]
        rw [if_pos hg, if_neg hb, if_pos hg, if_neg hb]
        have hxpos : 0 < x := lt_trans (by norm_num) hg.1
        have hinv : (1:ℚ) < 1/x := by
          rw [lt_div_iff₀ hxpos]; linarith
        have ha : (1:ℤ) ≤ ⌊1/x⌋ := by
          rw [Int.le_floor]; exact_mod_cast le_of_lt hinv
        have haq : q1 ≤ ⌊1/x⌋ * q1 := le_mul_of_one_le_left (by linarith) ha
        apply ih
        · exact sub_nonneg.mpr (Int.floor_le _)
        · linarith [Int.lt_floor_add_one (1/x)]
        · linarith
        · linarith
        · linarith
        · have hgrow : 3 * (q0 + q1) ≤ 2 * (q1 + (⌊1/x⌋ * q1 + q0)) := by linarith
          have hpow : (0:ℤ) ≤ 3^n := pow_nonneg (by norm_num) n
          have hmul : (3 * (q0 + q1)) * 3^n ≤ (2 * (q1 + (⌊1/x⌋ * q1 + q0))) * 3^n :=
            mul_le_mul_of_nonneg_right hgrow hpow
          have hexp : 200 * 2^(n+1) ≤ (q0 + q1) * 3^(n+1) := hbig
          have h2 : (200:ℤ) * 2^(n+1) = 2 * (200 * 2^n) := by ring
          have h3 : (q0 + q1) * 3^(n+1) = (3 * (q0 + q1)) * 3^n := by ring
          have h4 : (2 * (q1 + (⌊1/x⌋ * q1 + q0))) * 3^n
              = 2 * ((q1 + (⌊1/x⌋ * q1 + q0)) * 3^n) := by ring
          rw [h2, h3] at hexp
          rw [h4] at hmul
          linarith
    · simp only [cfLoop]
      rw [if_neg hg, if_neg hg]

/- ------------------------------------------------------------------ -/
/- Claim theorems                                                      -/
/- ------------------------------------------------------------------ -/

/-- Claim C1, counterexample: the claim says `integrate` on a constant
sample series returns exactly `2v` regardless of the sample count, but on
the two-sample constant series `[1, 1]` with period 1 the code returns 1,
not `2·1 = 2` (the open trapezoid sum covers only `(n-1)/n` of the period). -/
theorem numericalIntegration_const_counterexample :
    numericalIntegration (List.replicate 2 (1:ℚ)) 1 = 1 ∧ (1:ℚ) ≠ 2 * 1 := by
  constructor
  · show numericalIntegration [1, 1] 1 = 1
    norm_num [numericalIntegration, trapSum]
  · norm_num

/-- Claim C1, amended: for every period `T ≠ 0`, every sample count
`n ≥ 2` and every value `v`, `numericalIntegration` on the length-`n`
constant series `[v, …, v]` with period `T` returns exactly
`2·v·(n-1)/n` (so it depends on `n` and approaches `2v` only as `n → ∞`). -/
theorem numericalIntegration_const (T v : ℚ) (n : ℕ) (hn : 2 ≤ n) (hT : T ≠ 0) :
    numericalIntegration (List.replicate n v) T = 2 * v * ((n : ℚ) - 1) / (n : ℚ) := by
  obtain ⟨m, rfl⟩ : ∃ m, n = m + 1 := ⟨n - 1, by omega⟩
  have h0 : ¬ ((List.replicate (m+1) v).length = 0) := by simp
  simp only [numericalIntegration, if_neg h0, List.length_replicate]
  rw [trapSum_replicate]
  have hm : ((m:ℚ) + 1) ≠ 0 := by positivity
  push_cast
  field_simp
  ring

/-- Claim C1, witness: the amended statement instantiated at `T = 1`,
`v = 1`, `n = 2`. -/
theorem numericalIntegration_const_witness :
    2 ≤ 2 ∧ (1:ℚ) ≠ 0 ∧
      numericalIntegration (List.replicate 2 (1:ℚ)) 1 = 2 * 1 * (((2:ℕ):ℚ) - 1) / ((2:ℕ):ℚ) :=
  ⟨by decide, by decide, numericalIntegration_const 1 1 2 (by decide) (by decide)⟩

/-- Claim C2: for every sample list and every period, `numericalIntegration`
computes exactly the open composite trapezoidal rule described by the spec
(`dt = period / len`, sum of `(s[i] + s[i+1]) * dt / 2` over consecutive
pairs, no wrap-around segment, scaled by `2/period`), and it returns 0 on an
empty or single-element input. -/
theorem numericalIntegration_eq_integrateSpec (s : List ℚ) (T x : ℚ) :
    numericalIntegration s T = integrateSpec s T ∧
    numericalIntegration [] T = 0 ∧
    numericalIntegration [x] T = 0 := by
  refine ⟨?_, by simp [numericalIntegration], by simp [numericalIntegration, trapSum]⟩
  cases s with
  | nil => simp [numericalIntegration, integrateSpec]
  | cons a t =>
    cases t with
    | nil => simp [numericalIntegration, integrateSpec, trapSum]
    | cons b r =>
      have h1 : ¬ ((a :: b :: r).length = 0) := by simp
      have h2 : ¬ ((a :: b :: r).length ≤ 1) := by simp
      simp only [numericalIntegration, integrateSpec, if_neg h1, if_neg h2]
      rw [trapSum_eq_sum]

/-- Claim C3: with the fixed component periods 2π, π, 2π/3 (π-ratios 2, 1,
2/3), the resolved orthogonal period is 2π at analysis frequencies 1, 2 and
3, and 4π at 0.5; the function computes the period's π-ratio, and the factor
π is restored explicitly here. -/
theorem resolvePeriod_slider_values :
    (calculateOrthogonalPeriodForOmega 1 : ℝ) * Real.pi = 2 * Real.pi ∧
    (calculateOrthogonalPeriodForOmega 2 : ℝ) * Real.pi = 2 * Real.pi ∧
    (calculateOrthogonalPeriodForOmega 3 : ℝ) * Real.pi = 2 * Real.pi ∧
    (calculateOrthogonalPeriodForOmega (1/2) : ℝ) * Real.pi = 4 * Real.pi := by
  have h1 : calculateOrthogonalPeriodForOmega 1 = 2 := by
    norm_num [calculateOrthogonalPeriodForOmega, calculateLCMOfPeriods, lcmOfRationalNumbers,
      toRational, mathRound, lcmJS, gcdJS, List.foldl, abs_of_nonneg, abs_of_nonpos]
  have h2 : calculateOrthogonalPeriodForOmega 2 = 2 := by
    norm_num [calculateOrthogonalPeriodForOmega, calculateLCMOfPeriods, lcmOfRationalNumbers,
      toRational, mathRound, lcmJS, gcdJS, List.foldl, abs_of_nonneg, abs_of_nonpos]
  have h3 : calculateOrthogonalPeriodForOmega 3 = 2 := by
    norm_num [calculateOrthogonalPeriodForOmega, calculateLCMOfPeriods, lcmOfRationalNumbers,
      toRational, mathRound, lcmJS, gcdJS, List.foldl, abs_of_nonneg, abs_of_nonpos]
  have h4 : calculateOrthogonalPeriodForOmega (1/2) = 4 := by
    norm_num [calculateOrthogonalPeriodForOmega, calculateLCMOfPeriods, lcmOfRationalNumbers,
      toRational, mathRound, lcmJS, gcdJS, List.foldl, abs_of_nonneg, abs_of_nonpos]
  exact ⟨by rw [h1]; norm_num, by rw [h2]; norm_num, by rw [h3]; norm_num,
    by rw [h4]; norm_num⟩

/-- Claim C4, counterexample: `toRational` does not always return a reduced
pair with positive denominator.  The integer-reciprocal branch maps `1/2`
(π-ratio of the period π/2, analysis frequency ω = 4) to `\x7b2, 4\x7d`,
whose gcd is 2; and for inputs above `2·10¹⁰` the rounded reciprocal is 0,
giving denominator 0. -/
theorem toRational_not_reduced :
    toRational (1/2) = ⟨2, 4⟩ ∧ ¬ Int.gcd 2 4 = 1 ∧
    toRational ((4:ℚ) * 10^10) = ⟨2, 0⟩ ∧ ¬ (0:ℤ) > 0 := by
  refine ⟨?_, by decide, ?_, by decide⟩
  · simp only [toRational, mathRound]
    norm_num [abs_of_nonneg, abs_of_nonpos]
  · simp only [toRational, mathRound]
    norm_num [abs_of_nonneg, abs_of_nonpos]

/-- Claim C4, amended: the continued-fraction fallback of the
rationalization step does return a pair in lowest terms
(`gcd(numerator, denominator) = 1`) with positive denominator, for every
input; the exact-shortcut and integer/half-integer branches do not share
this invariant (see the counterexample). -/
theorem continuedFractionApprox_reduced (x : ℚ) :
    Int.gcd (continuedFractionApprox x 100).numerator
      (continuedFractionApprox x 100).denominator = 1 ∧
    0 < (continuedFractionApprox x 100).denominator := by
  have hbounds := cfLoop_det_bounds 30 (x - ⌊x⌋) 1 ⌊x⌋ 0 1
    (sub_nonneg.mpr (Int.floor_le x))
    (by linarith [Int.lt_floor_add_one x])
    le_rfl zero_le_one le_rfl (by norm_num)
    (Or.inr (by ring))
  have hden : (continuedFractionApprox x 100).denominator =
      (cfLoop 100 30 (x - ⌊x⌋) 1 ⌊x⌋ 0 1).2 := rfl
  exact ⟨hbounds.2.2, by rw [hden]; linarith [hbounds.1]⟩

/-- Claim C5: for every analysis frequency in the legal slider range
(0.5 to 3.0 in 0.1 steps), the integration-window period computed by
`calculateOrthogonalPeriodForOmega` is at most the fixed display period
computed once by `calculateMaxOrthogonalPeriod` (both as π-ratios; the
common factor π preserves the inequality). -/
theorem orthogonalPeriod_le_maxDisplayPeriod (ω : ℚ) (h : ω ∈ sliderOmegas) :
    calculateOrthogonalPeriodForOmega ω ≤ calculateMaxOrthogonalPeriod := by
  show calculateOrthogonalPeriodForOmega ω ≤
    (sliderOmegas.map calculateOrthogonalPeriodForOmega).foldl max 0
  exact le_foldl_max _ _ _ (List.mem_map_of_mem _ h)

/-- Claim C5, witness: instantiated at the slider value ω = 0.5. -/
theorem orthogonalPeriod_le_maxDisplayPeriod_witness :
    (1/2 : ℚ) ∈ sliderOmegas ∧
    calculateOrthogonalPeriodForOmega (1/2) ≤ calculateMaxOrthogonalPeriod := by
  have hmem : (1/2 : ℚ) ∈ sliderOmegas := by
    simp only [sliderOmegas, List.mem_map]
    exact ⟨0, by decide, by norm_num⟩
  exact ⟨hmem, orthogonalPeriod_le_maxDisplayPeriod _ hmem⟩

/-- Claim C6: for every rational input, the continued-fraction loop's result
is already stable with fuel 30 (the Fibonacci-style growth of the
denominators ends the loop well within 30 iterations), the returned
denominator lies in `[1, 100]`, and the loop body runs only while the
fractional remainder exceeds `1e-10` and the denominator is below the
bound 100. -/
theorem continuedFractionApprox_terminates (x : ℚ) :
    (∀ extra : ℕ, cfLoop 100 (30 + extra) (x - ⌊x⌋) 1 ⌊x⌋ 0 1 =
      cfLoop 100 30 (x - ⌊x⌋) 1 ⌊x⌋ 0 1) ∧
    1 ≤ (continuedFractionApprox x 100).denominator ∧
    (continuedFractionApprox x 100).denominator ≤ 100 ∧
    (∀ (fuel : ℕ) (y : ℚ) (p0 p1 q0 q1 : ℤ), ¬ (1/10^10 < y ∧ q1 < 100) →
      cfLoop 100 (fuel + 1) y p0 p1 q0 q1 = (p1, q1)) := by
  have hbounds := cfLoop_det_bounds 30 (x - ⌊x⌋) 1 ⌊x⌋ 0 1
    (sub_nonneg.mpr (Int.floor_le x))
    (by linarith [Int.lt_floor_add_one x])
    le_rfl zero_le_one le_rfl (by norm_num)
    (Or.inr (by ring))
  refine ⟨?_, hbounds.1, hbounds.2.1, ?_⟩
  · intro extra
    exact cfLoop_stable 30 extra _ _ _ _ _
      (sub_nonneg.mpr (Int.floor_le x))
      (by linarith [Int.lt_floor_add_one x])
      le_rfl zero_le_one le_rfl (by norm_num)
  · intro fuel y p0 p1 q0 q1 hng
    simp only [cfLoop]
    rw [if_neg hng]

/-- Claim C6, witness: the guard characterization instantiated at a state
with zero remainder and denominator 100, where the loop exits immediately. -/
theorem continuedFractionApprox_terminates_witness :
    cfLoop 100 (0 + 1) (0:ℚ) 1 1 0 100 = (1, 100) :=
  (continuedFractionApprox_terminates 0).2.2.2 0 0 1 1 0 100 (by norm_num)

/-- Claim C7: for every window `[-P/2, P/2]` and every equal-length pair of
value/time arrays, `splitDataByIntegrationPeriod` returns inside and outside
series of exactly the input's length, aligned index-for-index, and at every
index exactly one of the two series holds the sampled value while the other
holds the `null` marker; a sample goes inside exactly when its time lies in
the closed window. -/
theorem splitData_partition (P : ℚ) (data timeArray : List ℚ)
    (h : data.length = timeArray.length) :
    (splitDataByIntegrationPeriod P data timeArray).1.length = data.length ∧
    (splitDataByIntegrationPeriod P data timeArray).2.length = timeArray.length ∧
    ∀ i, i < timeArray.length →
      ((-P/2 ≤ timeArray.getD i 0 ∧ timeArray.getD i 0 ≤ P/2) →
        (splitDataByIntegrationPeriod P data timeArray).1.getD i none = some (data.getD i 0) ∧
        (splitDataByIntegrationPeriod P data timeArray).2.getD i none = none) ∧
      (¬ (-P/2 ≤ timeArray.getD i 0 ∧ timeArray.getD i 0 ≤ P/2) →
        (splitDataByIntegrationPeriod P data timeArray).1.getD i none = none ∧
        (splitDataByIntegrationPeriod P data timeArray).2.getD i none = some (data.getD i 0)) := by
  refine ⟨by simp [splitDataByIntegrationPeriod, h], by simp [splitDataByIntegrationPeriod], ?_⟩
  intro i hi
  have e1 : (splitDataByIntegrationPeriod P data timeArray).1.getD i none =
      if -P/2 ≤ timeArray.getD i 0 ∧ timeArray.getD i 0 ≤ P/2
      then some (data.getD i 0) else none := by
    simp only [splitDataByIntegrationPeriod]
    exact getD_map_range _ _ hi _ _
  have e2 : (splitDataByIntegrationPeriod P data timeArray).2.getD i none =
      if -P/2 ≤ timeArray.getD i 0 ∧ timeArray.getD i 0 ≤ P/2
      then none else some (data.getD i 0) := by
    simp only [splitDataByIntegrationPeriod]
    exact getD_map_range _ _ hi _ _
  exact ⟨fun hc => ⟨by rw [e1, if_pos hc], by rw [e2, if_pos hc]⟩,
         fun hc => ⟨by rw [e1, if_neg hc], by rw [e2, if_neg hc]⟩⟩

/-- Claim C7, witness: window `[-1, 1]`, values `[5, 7]` at times `[0, 3]`;
time 0 is inside (value kept inside, `null` outside), time 3 is outside. -/
theorem splitData_partition_witness :
    (splitDataByIntegrationPeriod 2 [5, 7] [0, 3]).1.getD 0 none = some 5 ∧
    (splitDataByIntegrationPeriod 2 [5, 7] [0, 3]).1.getD 1 none = none ∧
    (splitDataByIntegrationPeriod 2 [5, 7] [0, 3]).2.getD 0 none = none ∧
    (splitDataByIntegrationPeriod 2 [5, 7] [0, 3]).2.getD 1 none = some 7 := by
  have h := splitData_partition 2 [5, 7] [0, 3] rfl
  have h0 := (h.2.2 0 (by norm_num)).1 (by norm_num [List.getD])
  have h1 := (h.2.2 1 (by norm_num)).2 (by norm_num [List.getD])
  exact ⟨h0.1, h1.1, h0.2, h1.2⟩

/-- Claim C8: `formatIntegralValue` returns `"0"` when `|v| < 0.001`,
the literal `"0.707"` (or `"-0.707"` for negative input) when `|v|` is
within 0.01 of 0.707, and otherwise the rounded integer as a string; in
particular the spec's four examples hold: 0.0003 → "0", 0.706 → "0.707",
-0.71 → "-0.707", 2.4 → "2". -/
theorem formatIntegralValue_policy (v : ℚ) :
    (|v| < 1/1000 → formatIntegralValue v = "0") ∧
    (¬ |v| < 1/1000 → |(|v| - 707/1000)| < 1/100 →
      formatIntegralValue v = if v < 0 then "-0.707" else "0.707") ∧
    (¬ |v| < 1/1000 → ¬ |(|v| - 707/1000)| < 1/100 →
      formatIntegralValue v = toString (mathRound v)) ∧
    formatIntegralValue (3/10000) = "0" ∧
    formatIntegralValue (706/1000) = "0.707" ∧
    formatIntegralValue (-71/100) = "-0.707" ∧
    formatIntegralValue (24/10) = "2" := by
  have hzero : ∀ w : ℚ, |w| < 1/1000 → formatIntegralValue w = "0" := by
    intro w hw; rw [formatIntegralValue, if_pos hw]
  have hband : ∀ w : ℚ, ¬ |w| < 1/1000 → |(|w| - 707/1000)| < 1/100 →
      formatIntegralValue w = if w < 0 then "-0.707" else "0.707" := by
    intro w h1 h2; rw [formatIntegralValue, if_neg h1, if_pos h2]
  have hround : ∀ w : ℚ, ¬ |w| < 1/1000 → ¬ |(|w| - 707/1000)| < 1/100 →
      formatIntegralValue w = toString (mathRound w) := by
    intro w h1 h2; rw [formatIntegralValue, if_neg h1, if_neg h2]
  refine ⟨hzero v, hband v, hround v, ?_, ?_, ?_, ?_⟩
  · exact hzero _ (by norm_num [abs_of_nonneg])
  · rw [hband _ (by norm_num [abs_of_nonneg]) (by norm_num [abs_of_nonneg, abs_of_nonpos]),
      if_neg (by norm_num)]
  · rw [hband _ (by norm_num [abs_of_nonpos]) (by norm_num [abs_of_nonneg, abs_of_nonpos]),
      if_pos (by norm_num)]
  · rw [hround _ (by norm_num [abs_of_nonneg]) (by norm_num [abs_of_nonneg, abs_of_nonpos])]
    have : mathRound (24/10 : ℚ) = 2 := by norm_num [mathRound]
    rw [this]; decide

/-- Claim C8, witness: the integer-rounding clause instantiated at 5. -/
theorem formatIntegralValue_policy_witness :
    formatIntegralValue (5:ℚ) = toString (mathRound (5:ℚ)) :=
  (formatIntegralValue_policy 5).2.2.1 (by norm_num [abs_of_nonneg])
    (by norm_num [abs_of_nonneg])

/-- Claim C9 (code evaluated at the failing input): passing period 0 to the
integration with a non-empty sample series is not surfaced as any error
condition — `numericalIntegration` is a total function into the numbers and
silently returns a value (`0` here, where rational division by zero is 0; in
JavaScript the same expression is `(2/0) * 0 = NaN`).  No
`InvalidPeriod`/`InvalidFrequency` signal exists anywhere in the code. -/
theorem numericalIntegration_zero_period :
    numericalIntegration [1, 1] 0 = 0 := by
  norm_num [numericalIntegration, trapSum]

/-- Claim C10: outside the `"0"` and `"0.707"` bands, `formatIntegralValue`
returns the string of `⌊v + 1/2⌋`, i.e. rounding halves toward positive
infinity (JavaScript `Math.round`); hence 1.5 renders as "2" while -1.5
renders as "-1", not "-2". -/
theorem formatIntegralValue_round_half_up (v : ℚ) :
    (¬ |v| < 1/1000 → ¬ |(|v| - 707/1000)| < 1/100 →
      formatIntegralValue v = toString (⌊v + 1/2⌋ : ℤ)) ∧
    formatIntegralValue (3/2) = "2" ∧
    formatIntegralValue (-3/2) = "-1" ∧ ("-1" : String) ≠ "-2" := by
  refine ⟨?_, ?_, ?_, by decide⟩
  · intro h1 h2
    rw [formatIntegralValue, if_neg h1, if_neg h2]
    rfl
  · rw [formatIntegralValue, if_neg (by norm_num [abs_of_nonneg]),
      if_neg (by norm_num [abs_of_nonneg, abs_of_nonpos])]
    have : mathRound (3/2 : ℚ) = 2 := by norm_num [mathRound]
    rw [this]; decide
  · rw [formatIntegralValue, if_neg (by norm_num [abs_of_nonpos]),
      if_neg (by norm_num [abs_of_nonneg, abs_of_nonpos])]
    have : mathRound (-3/2 : ℚ) = -1 := by norm_num [mathRound]
    rw [this]; decide

/-- Claim C10, witness: the rounding clause instantiated at 7. -/
theorem formatIntegralValue_round_half_up_witness :
    formatIntegralValue (7:ℚ) = toString (⌊(7:ℚ) + 1/2⌋ : ℤ) :=
  (formatIntegralValue_round_half_up 7).1 (by norm_num [abs_of_nonneg])
    (by norm_num [abs_of_nonneg])

end SigSys
